import Mathlib

/-!
# Shallow embedding of `toy-vec` (`src/lib.rs`)

`ToyVec<T>` is a growable vector backed by a boxed slice `elements : Box<[T]>`
together with a logical length `len`.  The element type is required to
implement `Default`; we model this with an `Inhabited` instance whose
`default` plays the role of `T::default()`.

The boxed slice is modelled as a `List T` (its length is the capacity).
Rust's `Option<&T>` / `Option<T>` become `Option T`; methods taking
`&mut self` return the updated structure.  An out-of-bounds slice index,
which would panic in Rust, is modelled by the `none` branch of `getElem?`
(resp. by `getD`); the reachable-state invariant proved below shows these
branches are never taken by the code.
-/

set_option maxHeartbeats 1000000

structure ToyVec (T : Type) where
  elements : List T
  len : Nat

namespace ToyVec

variable {T : Type} [Inhabited T]

/-- `allocate_in_heap(size)`: a block of `size` slots, each filled with
`T::default()`. -/
def allocate_in_heap (T : Type) [Inhabited T] (size : Nat) : List T :=
  List.replicate size default

/-- `with_capacity(capacity)`. -/
def with_capacity (T : Type) [Inhabited T] (capacity : Nat) : ToyVec T :=
  { elements := allocate_in_heap T capacity, len := 0 }

/-- `new()` delegates to `with_capacity(0)`. -/
def new (T : Type) [Inhabited T] : ToyVec T :=
  with_capacity T 0

/-- `capacity()` is the length of the backing slice. -/
def capacity (v : ToyVec T) : Nat :=
  v.elements.length

/-- `grow()`: if the capacity is `0`, install a fresh block of one slot;
otherwise allocate a block of twice the capacity and move every element of
the old block into the corresponding index of the new one (the source loop
`for (i, elem) in old_elements.into_vec().into_iter().enumerate()`). -/
def grow (v : ToyVec T) : ToyVec T :=
  if v.capacity = 0 then
    { v with elements := allocate_in_heap T 1 }
  else
    let new_elements := allocate_in_heap T (v.capacity * 2)
    { v with
      elements := v.elements.enum.foldl (fun acc p => acc.set p.1 p.2) new_elements }

/-- `push(element)`: grow when full, then write at index `len` and
increment `len`. -/
def push (v : ToyVec T) (element : T) : ToyVec T :=
  let w := if v.len = v.capacity then v.grow else v
  { w with elements := w.elements.set w.len element, len := w.len + 1 }

/-- `get(index)`: `Some(&elements[index])` when `index < len`, else `None`. -/
def get (v : ToyVec T) (index : Nat) : Option T :=
  if index < v.len then v.elements[index]? else none

/-- `get_or(index, default)`. -/
def get_or (v : ToyVec T) (index : Nat) (d : T) : T :=
  (v.get index).getD d

/-- `pop()`: on an empty vector return `None`; otherwise decrement `len`,
swap the vacated slot with `T::default()` (`std::mem::replace`) and return
the removed value.  Returns the popped value together with the updated
vector. -/
def pop (v : ToyVec T) : Option T × ToyVec T :=
  if v.len = 0 then
    (none, v)
  else
    let n := v.len - 1
    let elem := v.elements.getD n default
    (some elem, { elements := v.elements.set n default, len := n })

end ToyVec

/-- The borrowing iterator: a read-only view of the backing slice, a
snapshot of the vector's length, and a cursor. -/
structure Iter (T : Type) where
  elements : List T
  len : Nat
  pos : Nat

/-- `iter()`: iterator over the current elements, cursor at `0`. -/
def ToyVec.iter {T : Type} [Inhabited T] (v : ToyVec T) : Iter T :=
  { elements := v.elements, len := v.len, pos := 0 }

/-- `Iter::next()`: `None` once the cursor reaches the snapshot length,
otherwise the element under the cursor, advancing the cursor. -/
def Iter.next {T : Type} (it : Iter T) : Option T × Iter T :=
  if it.pos ≥ it.len then
    (none, it)
  else
    (it.elements[it.pos]?, { it with pos := it.pos + 1 })

/-- Outputs of `k` consecutive `next()` calls, together with the final
iterator state. -/
def Iter.nextN {T : Type} (it : Iter T) : Nat → List (Option T) × Iter T
  | 0 => ([], it)
  | k + 1 =>
    let r := it.next
    let s := r.2.nextN k
    (r.1 :: s.1, s.2)

/-- A mutating operation on the vector. -/
inductive Op (T : Type) where
  | push (x : T)
  | pop

/-- Apply one operation (the value popped is discarded). -/
def ToyVec.applyOp {T : Type} [Inhabited T] (v : ToyVec T) : Op T → ToyVec T
  | .push x => v.push x
  | .pop => (v.pop).2

/-- Run a sequence of operations from a starting state. -/
def ToyVec.runOps {T : Type} [Inhabited T] (v : ToyVec T) (ops : List (Op T)) : ToyVec T :=
  ops.foldl ToyVec.applyOp v

/-- Push a list of values in order. -/
def ToyVec.pushAll {T : Type} [Inhabited T] (v : ToyVec T) (xs : List T) : ToyVec T :=
  xs.foldl ToyVec.push v

/-- The reachable-state invariant: the length never exceeds the capacity,
and every slot of the dead tail `[len, capacity)` holds `default`. -/
def ToyVec.Inv {T : Type} [Inhabited T] (v : ToyVec T) : Prop :=
  v.len ≤ v.capacity ∧
    v.elements.drop v.len = List.replicate (v.capacity - v.len) default

/-- The copy loop of `grow`: folding `set` over an enumerated source list
overwrites the prefix of the accumulator with the source. -/
theorem List.foldl_set_enumFrom {T : Type} (old : List T) : ∀ (k : Nat) (acc : List T),
    k + old.length ≤ acc.length →
    (old.enumFrom k).foldl (fun a p => a.set p.1 p.2) acc =
      acc.take k ++ old ++ acc.drop (k + old.length) := by
  induction old with
  | nil =>
    intro k acc _
    simp [List.enumFrom]
  | cons x xs ih =>
    intro k acc hle
    have hk : k < acc.length := by
      simp at hle
      omega
    have hlen : (acc.set k x).length = acc.length := by simp
    have hle2 : (k + 1) + xs.length ≤ (acc.set k x).length := by
      simp at hle ⊢
      omega
    rw [List.enumFrom_cons, List.foldl_cons, ih (k + 1) (acc.set k x) hle2]
    have hset : acc.set k x = acc.take k ++ x :: acc.drop (k + 1) := by
      rw [List.set_eq_take_append_cons_drop, if_pos hk]
    have htake : (acc.set k x).take (k + 1) = acc.take k ++ [x] := by
      rw [hset, List.take_append_eq_append_take, List.take_take,
        Nat.min_eq_right (Nat.le_succ k)]
      have hlt : (acc.take k).length = k := List.length_take_of_le (Nat.le_of_lt hk)
      rw [hlt]
      simp
    have hdrop : (acc.set k x).drop (k + 1 + xs.length) = acc.drop (k + 1 + xs.length) :=
      List.drop_set_of_lt x acc (by omega)
    rw [htake, hdrop]
    simp
    have heq : k + 1 + xs.length = k + (xs.length + 1) := by omega
    rw [heq]

namespace ToyVec

variable {T : Type} [Inhabited T]

/-- `grow` keeps `len` unchanged. -/
theorem grow_len (v : ToyVec T) : (v.grow).len = v.len := by
  unfold grow
  split <;> rfl

/-- The backing slice produced by `grow`. -/
theorem grow_elements (v : ToyVec T) :
    (v.grow).elements =
      if v.capacity = 0 then [default]
      else v.elements ++ List.replicate v.capacity default := by
  unfold grow
  split
  · simp [allocate_in_heap, List.replicate]
  · rename_i h
    show v.elements.enum.foldl (fun acc p => acc.set p.1 p.2)
        (allocate_in_heap T (v.capacity * 2)) = _
    rw [List.enum_eq_enumFrom,
      List.foldl_set_enumFrom v.elements 0 (allocate_in_heap T (v.capacity * 2))
        (by simp [allocate_in_heap, capacity]; omega)]
    simp [allocate_in_heap, capacity, List.drop_replicate]
    omega

/-- The capacity produced by `grow`. -/
theorem grow_capacity (v : ToyVec T) :
    (v.grow).capacity = if v.capacity = 0 then 1 else v.capacity * 2 := by
  show (v.grow).elements.length = _
  rw [grow_elements]
  split
  · rfl
  · simp [capacity]
    omega

/-- `push` always increments `len` by one. -/
theorem push_len (v : ToyVec T) (x : T) : (v.push x).len = v.len + 1 := by
  unfold push
  split
  · simp [grow_len]
  · rfl

/-- The backing slice produced by `push`. -/
theorem push_elements (v : ToyVec T) (x : T) :
    (v.push x).elements =
      (if v.len = v.capacity then (v.grow).elements else v.elements).set v.len x := by
  unfold push
  split <;> rename_i h <;> simp [h, grow_len]

/-- On a state satisfying `len ≤ capacity`, the capacity after `push`. -/
theorem push_capacity (v : ToyVec T) (x : T) (h : v.len ≤ v.capacity) :
    (v.push x).capacity =
      if v.len < v.capacity then v.capacity
      else if v.capacity = 0 then 1 else v.capacity * 2 := by
  show (v.push x).elements.length = _
  rw [push_elements, List.length_set]
  by_cases he : v.len = v.capacity
  · rw [if_pos he, if_neg (by omega)]
    exact grow_capacity v
  · rw [if_neg he, if_pos (by omega)]
    rfl

/-- The base list written into by `push` is at least one slot longer than
`len`, so the write at index `len` is in bounds. -/
theorem push_base_length (v : ToyVec T) (h : v.len ≤ v.capacity) :
    v.len < (if v.len = v.capacity then (v.grow).elements else v.elements).length := by
  by_cases he : v.len = v.capacity
  · rw [if_pos he]
    show v.len < (v.grow).capacity
    rw [grow_capacity]
    by_cases h0 : v.capacity = 0
    · rw [if_pos h0]
      omega
    · rw [if_neg h0]
      omega
  · rw [if_neg he]
    show v.len < v.capacity
    omega

/-- `push` leaves the slots below the old `len` unchanged. -/
theorem push_getElem?_lt (v : ToyVec T) (x : T) (h : v.len ≤ v.capacity)
    (i : Nat) (hi : i < v.len) : (v.push x).elements[i]? = v.elements[i]? := by
  rw [push_elements, List.getElem?_set_ne (by omega)]
  by_cases he : v.len = v.capacity
  · rw [if_pos he, grow_elements]
    by_cases h0 : v.capacity = 0
    · exfalso
      omega
    · rw [if_neg h0]
      exact List.getElem?_append_left (by unfold capacity at h; omega)
  · rw [if_neg he]

/-- `push` writes its argument at index `len`. -/
theorem push_getElem?_self (v : ToyVec T) (x : T) (h : v.len ≤ v.capacity) :
    (v.push x).elements[v.len]? = some x := by
  rw [push_elements]
  exact List.getElem?_set_self (push_base_length v h)

/-- `pop` on a non-empty vector decrements `len`. -/
theorem pop_len (v : ToyVec T) (h : 0 < v.len) : ((v.pop).2).len = v.len - 1 := by
  unfold pop
  rw [if_neg (by omega)]

/-- `pop` never changes the capacity. -/
theorem pop_capacity (v : ToyVec T) : ((v.pop).2).capacity = v.capacity := by
  unfold pop
  split
  · rfl
  · show (v.elements.set (v.len - 1) default).length = v.elements.length
    exact List.length_set v.elements _ _

/-- The value returned by `pop` on a non-empty vector. -/
theorem pop_fst (v : ToyVec T) (h : 0 < v.len) :
    (v.pop).1 = some (v.elements.getD (v.len - 1) default) := by
  unfold pop
  rw [if_neg (by omega)]

/-- The backing slice produced by `pop` on a non-empty vector: the vacated
slot is overwritten with the default value. -/
theorem pop_elements (v : ToyVec T) (h : 0 < v.len) :
    ((v.pop).2).elements = v.elements.set (v.len - 1) default := by
  unfold pop
  rw [if_neg (by omega)]

omit [Inhabited T] in
/-- Capacity is definitionally the length of the backing slice. -/
theorem capacity_eq (v : ToyVec T) : v.capacity = v.elements.length := rfl

/-- `with_capacity` establishes the invariant. -/
theorem with_capacity_Inv (n : Nat) : (with_capacity T n).Inv := by
  unfold Inv with_capacity allocate_in_heap capacity
  simp

/-- `new` establishes the invariant. -/
theorem new_Inv : (new T).Inv :=
  with_capacity_Inv 0

/-- `push` preserves the invariant. -/
theorem push_Inv (v : ToyVec T) (x : T) (h : v.Inv) : (v.push x).Inv := by
  obtain ⟨h1, h2⟩ := h
  have hcap := push_capacity v x h1
  constructor
  · rw [push_len, hcap]
    by_cases hlt : v.len < v.capacity
    · rw [if_pos hlt]
      omega
    · rw [if_neg hlt]
      by_cases h0 : v.capacity = 0
      · rw [if_pos h0]
        omega
      · rw [if_neg h0]
        omega
  · show (v.push x).elements.drop (v.push x).len =
      List.replicate ((v.push x).capacity - (v.push x).len) default
    rw [push_len, hcap, push_elements, List.drop_set,
      if_pos (Nat.lt_succ_self v.len)]
    by_cases he : v.len = v.capacity
    · rw [if_pos he, if_neg (by omega), grow_elements]
      by_cases h0 : v.capacity = 0
      · rw [if_pos h0, if_pos h0]
        have hl : v.len = 0 := by omega
        rw [hl]
        simp
      · rw [if_neg h0, if_neg h0]
        have hstep : (v.elements ++ List.replicate v.capacity (default : T)).drop
            (v.capacity + 1) = (List.replicate v.capacity (default : T)).drop 1 := by
          rw [show v.capacity + 1 = v.elements.length + 1 from rfl]
          exact List.drop_append 1
        rw [he, hstep, List.drop_replicate]
        congr 1
        omega
    · rw [if_neg he, if_pos (by omega)]
      have hdd : v.elements.drop (v.len + 1) = (v.elements.drop v.len).drop 1 := by
        rw [List.drop_drop]
      rw [hdd, h2, List.drop_replicate, Nat.sub_sub]

/-- `pop` preserves the invariant. -/
theorem pop_Inv (v : ToyVec T) (h : v.Inv) : ((v.pop).2).Inv := by
  obtain ⟨h1, h2⟩ := h
  by_cases h0 : v.len = 0
  · unfold pop
    rw [if_pos h0]
    exact ⟨h1, h2⟩
  · have hpos : 0 < v.len := by omega
    have hlt : v.len - 1 < v.elements.length := by
      rw [← capacity_eq]
      omega
    constructor
    · show ((v.pop).2).len ≤ ((v.pop).2).capacity
      rw [pop_len v hpos, pop_capacity]
      omega
    · show ((v.pop).2).elements.drop ((v.pop).2).len =
        List.replicate (((v.pop).2).capacity - ((v.pop).2).len) default
      rw [pop_len v hpos, pop_capacity, pop_elements v hpos,
        List.set_eq_take_append_cons_drop, if_pos hlt]
      have h3 : (v.elements.take (v.len - 1)).length = v.len - 1 :=
        List.length_take_of_le (Nat.le_of_lt hlt)
      have h4 : (v.elements.take (v.len - 1) ++
            (default : T) :: v.elements.drop (v.len - 1 + 1)).drop (v.len - 1) =
          (default : T) :: v.elements.drop (v.len - 1 + 1) :=
        List.drop_left' h3
      rw [h4, show v.len - 1 + 1 = v.len by omega, h2,
        show v.capacity - (v.len - 1) = (v.capacity - v.len) + 1 by omega,
        List.replicate_succ]

/-- Every mutating operation preserves the invariant. -/
theorem applyOp_Inv (v : ToyVec T) (op : Op T) (h : v.Inv) : (v.applyOp op).Inv := by
  cases op with
  | push x => exact push_Inv v x h
  | pop => exact pop_Inv v h

/-- Every sequence of mutating operations preserves the invariant. -/
theorem runOps_Inv (ops : List (Op T)) : ∀ (v : ToyVec T), v.Inv → (v.runOps ops).Inv := by
  induction ops with
  | nil =>
    intro v h
    exact h
  | cons op rest ih =>
    intro v h
    exact ih (v.applyOp op) (applyOp_Inv v op h)

/-- The abstract contents of the vector: the live prefix of the backing
slice. -/
def toList (v : ToyVec T) : List T :=
  v.elements.take v.len

/-- `push` appends its argument to the abstract contents. -/
theorem push_toList (v : ToyVec T) (x : T) (h : v.len ≤ v.capacity) :
    (v.push x).toList = v.toList ++ [x] := by
  unfold toList
  have hb := push_base_length v h
  rw [push_len, push_elements, List.set_eq_take_append_cons_drop, if_pos hb,
    List.take_append_eq_append_take, List.take_take,
    Nat.min_eq_right (Nat.le_succ v.len),
    List.length_take_of_le (Nat.le_of_lt hb),
    show v.len + 1 - v.len = 1 by omega]
  congr 1
  · by_cases he : v.len = v.capacity
    · rw [if_pos he, grow_elements]
      by_cases h0 : v.capacity = 0
      · rw [if_pos h0]
        have hl : v.len = 0 := by omega
        rw [hl]
        simp
      · rw [if_neg h0, he, List.take_left' (capacity_eq v).symm,
          List.take_of_length_le (Nat.le_of_eq (capacity_eq v).symm)]
    · rw [if_neg he]

/-- `pushAll` increases the length by the number of pushed values. -/
theorem pushAll_len (xs : List T) : ∀ (v : ToyVec T),
    (v.pushAll xs).len = v.len + xs.length := by
  induction xs with
  | nil =>
    intro v
    simp [pushAll]
  | cons y ys ih =>
    intro v
    show ((v.push y).pushAll ys).len = _
    rw [ih (v.push y), push_len]
    simp
    omega

/-- `pushAll` preserves the invariant. -/
theorem pushAll_Inv (xs : List T) : ∀ (v : ToyVec T), v.Inv → (v.pushAll xs).Inv := by
  induction xs with
  | nil =>
    intro v h
    exact h
  | cons y ys ih =>
    intro v h
    exact ih (v.push y) (push_Inv v y h)

/-- `pushAll` appends the pushed values to the abstract contents. -/
theorem pushAll_toList (xs : List T) : ∀ (v : ToyVec T), v.Inv →
    (v.pushAll xs).toList = v.toList ++ xs := by
  induction xs with
  | nil =>
    intro v _
    simp [pushAll]
  | cons y ys ih =>
    intro v h
    show ((v.push y).pushAll ys).toList = _
    rw [ih (v.push y) (push_Inv v y h), push_toList v y h.1]
    simp

/-- Building a vector from a list of values reproduces exactly that list. -/
theorem pushAll_new_toList (xs : List T) : ((new T).pushAll xs).toList = xs := by
  rw [pushAll_toList xs (new T) new_Inv]
  rfl

/-- The length of a vector built from a list of values. -/
theorem pushAll_new_len (xs : List T) : ((new T).pushAll xs).len = xs.length := by
  rw [pushAll_len]
  have h0 : (new T).len = 0 := rfl
  omega

/-- The capacity of a vector built by pushing `k` values onto `new()` is `0`
for `k = 0` and the least power of two that is at least `k` otherwise. -/
theorem pushAll_new_capacity (xs : List T) :
    ((new T).pushAll xs).capacity =
      if xs.length = 0 then 0 else 2 ^ Nat.clog 2 xs.length := by
  induction xs using List.reverseRecOn with
  | nil => rfl
  | append_singleton ys a ih =>
    have hInv : ((new T).pushAll ys).Inv := pushAll_Inv ys (new T) new_Inv
    have hlen : ((new T).pushAll ys).len = ys.length := pushAll_new_len ys
    have hstep : (new T).pushAll (ys ++ [a]) = ((new T).pushAll ys).push a := by
      unfold pushAll
      rw [List.foldl_append]
      rfl
    rw [hstep, push_capacity _ a hInv.1, hlen, ih]
    simp only [List.length_append, List.length_cons, List.length_nil]
    by_cases h0 : ys.length = 0
    · rw [h0]
      norm_num [Nat.clog_one_right]
    · rw [if_neg h0]
      simp only [Nat.zero_add]
      rw [if_neg (show ¬ (ys.length + 1 = 0) by omega)]
      have hk : 1 ≤ ys.length := by omega
      have hk_le : ys.length ≤ 2 ^ Nat.clog 2 ys.length :=
        Nat.le_pow_clog (by norm_num) ys.length
      by_cases hlt : ys.length < 2 ^ Nat.clog 2 ys.length
      · rw [if_pos hlt]
        have ha : Nat.clog 2 (ys.length + 1) ≤ Nat.clog 2 ys.length :=
          (Nat.le_pow_iff_clog_le (by norm_num)).1 (by omega)
        have hb : Nat.clog 2 ys.length ≤ Nat.clog 2 (ys.length + 1) :=
          Nat.clog_mono_right 2 (by omega)
        rw [show Nat.clog 2 (ys.length + 1) = Nat.clog 2 ys.length by omega]
      · rw [if_neg hlt, if_neg (pow_ne_zero _ (by norm_num : (2:Nat) ≠ 0))]
        have hkeq : ys.length = 2 ^ Nat.clog 2 ys.length := by omega
        have ha : Nat.clog 2 (ys.length + 1) ≤ Nat.clog 2 ys.length + 1 :=
          (Nat.le_pow_iff_clog_le (by norm_num)).1 (by rw [pow_succ]; omega)
        have hb : ¬ Nat.clog 2 (ys.length + 1) ≤ Nat.clog 2 ys.length := by
          intro hc
          have := (Nat.le_pow_iff_clog_le (by norm_num : (1:Nat) < 2)).2 hc
          omega
        rw [show Nat.clog 2 (ys.length + 1) = Nat.clog 2 ys.length + 1 by omega,
          pow_succ]

end ToyVec

/-- Unfolding of one step of `nextN`. -/
theorem Iter.nextN_succ {T : Type} (it : Iter T) (k : Nat) :
    (it.nextN (k + 1)).1 = (it.next).1 :: (((it.next).2).nextN k).1 :=
  rfl

/-- An exhausted iterator yields `none` and does not move. -/
theorem Iter.next_of_le {T : Type} (it : Iter T) (h : it.len ≤ it.pos) :
    it.next = (none, it) := by
  unfold next
  rw [if_pos h]

/-- A non-exhausted iterator yields the element under the cursor. -/
theorem Iter.next_of_lt {T : Type} (it : Iter T) (h : it.pos < it.len) :
    it.next = (it.elements[it.pos]?, { it with pos := it.pos + 1 }) := by
  unfold next
  rw [if_neg (by omega)]

/-- The outputs of `k` calls to `next` on a well-formed iterator: the still
unvisited live elements (at most `k` of them), padded with `none`. -/
theorem Iter.nextN_spec {T : Type} :
    ∀ (k : Nat) (elements : List T) (len pos : Nat),
    len ≤ elements.length → pos ≤ len →
    ((Iter.mk elements len pos).nextN k).1 =
      (((elements.take len).drop pos).take k).map some ++
        List.replicate (k - (len - pos)) none := by
  intro k
  induction k with
  | zero =>
    intro elements len pos h1 h2
    simp [nextN]
  | succ k ih =>
    intro elements len pos h1 h2
    rw [Iter.nextN_succ]
    by_cases hpl : len ≤ pos
    · rw [Iter.next_of_le (Iter.mk elements len pos) hpl]
      rw [ih elements len pos h1 h2]
      have hd : (elements.take len).drop pos = [] := by
        apply List.drop_eq_nil_of_le
        rw [List.length_take_of_le h1]
        exact hpl
      rw [hd, show len - pos = 0 by omega]
      simp [List.replicate_succ]
    · have hlt : pos < len := by omega
      rw [Iter.next_of_lt (Iter.mk elements len pos) hlt]
      rw [ih elements len (pos + 1) h1 (by omega)]
      have hplen : pos < (elements.take len).length := by
        rw [List.length_take_of_le h1]
        exact hlt
      rw [List.drop_eq_getElem_cons hplen, List.take_succ_cons, List.map_cons]
      rw [show (k + 1) - (len - pos) = k - (len - (pos + 1)) by omega]
      rw [List.getElem_take]
      rw [List.getElem?_eq_getElem (lt_of_lt_of_le hlt h1)]
      rfl

open ToyVec

/-- C1: pushing `x` onto a vector of length `L` (with `L ≤ capacity`, as in
every reachable state) gives length `L + 1`, makes `get L` return `x`, and
leaves `get i` unchanged for every `i < L`. -/
theorem append_then_get_spec {T : Type} [Inhabited T] (v : ToyVec T) (x : T)
    (h : v.len ≤ v.capacity) :
    (v.push x).len = v.len + 1 ∧
    (v.push x).get v.len = some x ∧
    ∀ i, i < v.len → (v.push x).get i = v.get i := by
  refine ⟨push_len v x, ?_, ?_⟩
  · unfold ToyVec.get
    rw [push_len, if_pos (by omega), push_getElem?_self v x h]
  · intro i hi
    unfold ToyVec.get
    rw [push_len, if_pos (by omega), if_pos hi, push_getElem?_lt v x h i hi]

/-- Witness for C1 at the concrete state `⟨[5, 0], 1⟩` and value `7`. -/
theorem append_then_get_witness :
    (ToyVec.mk [5, 0] 1 : ToyVec Nat).len ≤ (ToyVec.mk [5, 0] 1 : ToyVec Nat).capacity ∧
    (((ToyVec.mk [5, 0] 1 : ToyVec Nat).push 7).len = (ToyVec.mk [5, 0] 1 : ToyVec Nat).len + 1 ∧
      ((ToyVec.mk [5, 0] 1 : ToyVec Nat).push 7).get (ToyVec.mk [5, 0] 1 : ToyVec Nat).len = some 7 ∧
      ∀ i, i < (ToyVec.mk [5, 0] 1 : ToyVec Nat).len →
        ((ToyVec.mk [5, 0] 1 : ToyVec Nat).push 7).get i = (ToyVec.mk [5, 0] 1 : ToyVec Nat).get i) :=
  ⟨by decide, append_then_get_spec (ToyVec.mk [5, 0] 1) 7 (by decide)⟩

/-- C2: after pushing `k ≥ 1` values onto `new()` (which is
`with_capacity(0)`), the capacity is the least power of two that is `≥ k`;
`grow` takes capacity `0` to exactly `1` and capacity `c > 0` to exactly
`2 * c`. -/
theorem growth_doubling_spec {T : Type} [Inhabited T] (xs : List T) (hne : xs ≠ []) :
    (new T = with_capacity T 0) ∧
    (∃ j : Nat, ((new T).pushAll xs).capacity = 2 ^ j ∧ xs.length ≤ 2 ^ j ∧
      ∀ m : Nat, xs.length ≤ 2 ^ m → 2 ^ j ≤ 2 ^ m) ∧
    (∀ v : ToyVec T, v.capacity = 0 → (v.grow).capacity = 1) ∧
    (∀ v : ToyVec T, 0 < v.capacity → (v.grow).capacity = 2 * v.capacity) := by
  refine ⟨rfl, ⟨Nat.clog 2 xs.length, ?_, Nat.le_pow_clog (by norm_num) _, ?_⟩, ?_, ?_⟩
  · rw [pushAll_new_capacity,
      if_neg (fun hl => hne (List.length_eq_zero.mp hl))]
  · intro m hm
    exact Nat.pow_le_pow_right (by norm_num)
      ((Nat.le_pow_iff_clog_le (by norm_num)).1 hm)
  · intro v h0
    rw [grow_capacity, if_pos h0]
  · intro v h0
    rw [grow_capacity, if_neg (by omega), Nat.mul_comm]

/-- Witness for C2 at the concrete value list `[1, 2, 3]`. -/
theorem growth_doubling_witness :
    ([1, 2, 3] : List Nat) ≠ [] ∧
    ((new Nat = with_capacity Nat 0) ∧
      (∃ j : Nat, ((new Nat).pushAll [1, 2, 3]).capacity = 2 ^ j ∧
        ([1, 2, 3] : List Nat).length ≤ 2 ^ j ∧
        ∀ m : Nat, ([1, 2, 3] : List Nat).length ≤ 2 ^ m → 2 ^ j ≤ 2 ^ m) ∧
      (∀ v : ToyVec Nat, v.capacity = 0 → (v.grow).capacity = 1) ∧
      (∀ v : ToyVec Nat, 0 < v.capacity → (v.grow).capacity = 2 * v.capacity)) :=
  ⟨by decide, growth_doubling_spec [1, 2, 3] (by decide)⟩

/-- C3: building a vector by pushing `xs` in order onto a fresh vector and
then calling `next()` `xs.length + m` times yields exactly the elements of
`xs` in order followed by `m` times `none`; moreover `next()` on any
exhausted iterator returns `none` and leaves the iterator unchanged. -/
theorem iteration_complete_spec {T : Type} [Inhabited T] (xs : List T) (m : Nat) :
    ((((new T).pushAll xs).iter).nextN (xs.length + m)).1 =
      xs.map some ++ List.replicate m none ∧
    ∀ it : Iter T, it.len ≤ it.pos → it.next = (none, it) := by
  constructor
  · have hInv := pushAll_Inv xs (new T) new_Inv
    have hlen := pushAll_new_len xs
    have htl := pushAll_new_toList xs
    have hiter : ((new T).pushAll xs).iter =
        Iter.mk ((new T).pushAll xs).elements ((new T).pushAll xs).len 0 := rfl
    rw [hiter, Iter.nextN_spec (xs.length + m) _ _ 0
      (by rw [← capacity_eq]; exact hInv.1) (Nat.zero_le _),
      List.drop_zero,
      show ((new T).pushAll xs).elements.take ((new T).pushAll xs).len = xs from htl,
      List.take_of_length_le (Nat.le_add_right _ _), hlen,
      show xs.length + m - (xs.length - 0) = m by omega]
  · intro it hle
    exact Iter.next_of_le it hle

/-- Witness for C3 at the concrete value list `[1, 2]` with two extra
`next()` calls. -/
theorem iteration_complete_witness :
    ((((new Nat).pushAll [1, 2]).iter).nextN (([1, 2] : List Nat).length + 2)).1 =
      ([1, 2] : List Nat).map some ++ List.replicate 2 none ∧
    ∀ it : Iter Nat, it.len ≤ it.pos → it.next = (none, it) :=
  iteration_complete_spec [1, 2] 2

/-- C4: pushing `x` and immediately popping returns exactly `x` and
restores the previous length, on every state with `len ≤ capacity`. -/
theorem push_pop_roundtrip_spec {T : Type} [Inhabited T] (v : ToyVec T) (x : T)
    (h : v.len ≤ v.capacity) :
    ((v.push x).pop).1 = some x ∧ (((v.push x).pop).2).len = v.len := by
  have hlen : (v.push x).len = v.len + 1 := push_len v x
  constructor
  · rw [pop_fst _ (by omega)]
    congr 1
    rw [List.getD_eq_getElem?_getD, hlen, show v.len + 1 - 1 = v.len by omega,
      push_getElem?_self v x h]
    rfl
  · rw [pop_len _ (by omega), hlen]
    omega

/-- Witness for C4 at the concrete state `⟨[5, 0], 1⟩` and value `9`. -/
theorem push_pop_roundtrip_witness :
    (ToyVec.mk [5, 0] 1 : ToyVec Nat).len ≤ (ToyVec.mk [5, 0] 1 : ToyVec Nat).capacity ∧
    ((((ToyVec.mk [5, 0] 1 : ToyVec Nat).push 9).pop).1 = some 9 ∧
      ((((ToyVec.mk [5, 0] 1 : ToyVec Nat).push 9).pop).2).len =
        (ToyVec.mk [5, 0] 1 : ToyVec Nat).len) :=
  ⟨by decide, push_pop_roundtrip_spec (ToyVec.mk [5, 0] 1) 9 (by decide)⟩

/-- C5: `get` is total over all indices: on every state with
`len ≤ capacity` it returns exactly the `index`-th element of the live
contents (`some` below `len`), and `none` for every `index ≥ len`, however
far beyond the capacity. -/
theorem get_total_spec {T : Type} [Inhabited T] (v : ToyVec T) (index : Nat)
    (h : v.len ≤ v.capacity) :
    v.get index = (v.toList)[index]? ∧
    (index < v.len → ∃ y, v.get index = some y) ∧
    (v.len ≤ index → v.get index = none) := by
  refine ⟨?_, ?_, ?_⟩
  · unfold ToyVec.get toList
    by_cases hi : index < v.len
    · rw [if_pos hi, List.getElem?_take_of_lt hi]
    · rw [if_neg hi]
      symm
      exact List.getElem?_take_eq_none (by omega)
  · intro hi
    have hil : index < v.elements.length := by
      rw [← capacity_eq]
      omega
    refine ⟨v.elements.get ⟨index, hil⟩, ?_⟩
    unfold ToyVec.get
    rw [if_pos hi, List.getElem?_eq_getElem hil]
    rfl
  · intro hle
    unfold ToyVec.get
    rw [if_neg (by omega)]

/-- Witness for C5 at the concrete state `⟨[3, 4, 0], 2⟩` and the
out-of-capacity index `1002`. -/
theorem get_total_witness :
    (ToyVec.mk [3, 4, 0] 2 : ToyVec Nat).len ≤ (ToyVec.mk [3, 4, 0] 2 : ToyVec Nat).capacity ∧
    ((ToyVec.mk [3, 4, 0] 2 : ToyVec Nat).get 1002 =
        ((ToyVec.mk [3, 4, 0] 2 : ToyVec Nat).toList)[1002]? ∧
      (1002 < (ToyVec.mk [3, 4, 0] 2 : ToyVec Nat).len →
        ∃ y, (ToyVec.mk [3, 4, 0] 2 : ToyVec Nat).get 1002 = some y) ∧
      ((ToyVec.mk [3, 4, 0] 2 : ToyVec Nat).len ≤ 1002 →
        (ToyVec.mk [3, 4, 0] 2 : ToyVec Nat).get 1002 = none)) :=
  ⟨by decide, get_total_spec (ToyVec.mk [3, 4, 0] 2) 1002 (by decide)⟩

/-- C6: `pop` on a vector of length `0` — in particular on `new()` or
`with_capacity(c)` — returns `none`. -/
theorem empty_pop_spec {T : Type} [Inhabited T] (c : Nat) :
    ((with_capacity T c).pop).1 = none ∧
    ((new T).pop).1 = none ∧
    ∀ v : ToyVec T, v.len = 0 → (v.pop).1 = none := by
  refine ⟨rfl, rfl, ?_⟩
  intro v hv
  unfold pop
  rw [if_pos hv]

/-- C7: every sequence of `push`/`pop` operations from `with_capacity(n)`
or from `new()` keeps `length ≤ capacity` (lengths are naturals, so
`0 ≤ length` holds by type). -/
theorem len_le_capacity_spec {T : Type} [Inhabited T] (n : Nat) (ops : List (Op T)) :
    ((with_capacity T n).runOps ops).len ≤ ((with_capacity T n).runOps ops).capacity ∧
    ((new T).runOps ops).len ≤ ((new T).runOps ops).capacity :=
  ⟨(runOps_Inv ops _ (with_capacity_Inv n)).1, (runOps_Inv ops _ new_Inv).1⟩

/-- C8: on every reachable non-empty state, `pop` returns the element at
the last live index, decrements the length by one, overwrites the vacated
slot with the default value, keeps the capacity unchanged (no
reallocation), and leaves every element below the new length unchanged. -/
theorem pop_effect_spec {T : Type} [Inhabited T] (v : ToyVec T)
    (h : v.Inv) (hp : 0 < v.len) :
    (v.pop).1 = v.get (v.len - 1) ∧
    ((v.pop).2).len = v.len - 1 ∧
    ((v.pop).2).capacity = v.capacity ∧
    ((v.pop).2).elements[v.len - 1]? = some default ∧
    ∀ i, i < v.len - 1 → ((v.pop).2).get i = v.get i := by
  obtain ⟨h1, h2⟩ := h
  have hlt : v.len - 1 < v.elements.length := by
    rw [← capacity_eq]
    omega
  refine ⟨?_, pop_len v hp, pop_capacity v, ?_, ?_⟩
  · rw [pop_fst v hp]
    unfold ToyVec.get
    rw [if_pos (by omega), List.getD_eq_getElem?_getD,
      List.getElem?_eq_getElem hlt]
    rfl
  · rw [pop_elements v hp]
    exact List.getElem?_set_self hlt
  · intro i hi
    unfold ToyVec.get
    rw [pop_len v hp, pop_elements v hp, if_pos hi, if_pos (by omega),
      List.getElem?_set_ne (by omega)]

/-- Witness for C8 at the concrete state `⟨[3, 4, 0], 2⟩`. -/
theorem pop_effect_witness :
    (ToyVec.mk [3, 4, 0] 2 : ToyVec Nat).Inv ∧ 0 < (ToyVec.mk [3, 4, 0] 2 : ToyVec Nat).len ∧
    (((ToyVec.mk [3, 4, 0] 2 : ToyVec Nat).pop).1 =
        (ToyVec.mk [3, 4, 0] 2 : ToyVec Nat).get ((ToyVec.mk [3, 4, 0] 2 : ToyVec Nat).len - 1) ∧
      (((ToyVec.mk [3, 4, 0] 2 : ToyVec Nat).pop).2).len =
        (ToyVec.mk [3, 4, 0] 2 : ToyVec Nat).len - 1 ∧
      (((ToyVec.mk [3, 4, 0] 2 : ToyVec Nat).pop).2).capacity =
        (ToyVec.mk [3, 4, 0] 2 : ToyVec Nat).capacity ∧
      (((ToyVec.mk [3, 4, 0] 2 : ToyVec Nat).pop).2).elements[(ToyVec.mk [3, 4, 0] 2 : ToyVec Nat).len - 1]? =
        some default ∧
      ∀ i, i < (ToyVec.mk [3, 4, 0] 2 : ToyVec Nat).len - 1 →
        (((ToyVec.mk [3, 4, 0] 2 : ToyVec Nat).pop).2).get i =
          (ToyVec.mk [3, 4, 0] 2 : ToyVec Nat).get i) :=
  ⟨⟨by decide, by decide⟩, by decide,
    pop_effect_spec (ToyVec.mk [3, 4, 0] 2) ⟨by decide, by decide⟩ (by decide)⟩

/-- C9: the slot invariant — `len ≤ capacity` and every slot in
`[len, capacity)` holding the default value — is established by
construction and preserved by `push` (including growth) and `pop`; hence it
holds in every state reachable from `with_capacity(n)`. -/
theorem slots_invariant_spec {T : Type} [Inhabited T] (n : Nat) (ops : List (Op T)) (x : T) :
    ((with_capacity T n).runOps ops).Inv ∧
    (with_capacity T n).Inv ∧
    (new T).Inv ∧
    (∀ v : ToyVec T, v.Inv → (v.push x).Inv) ∧
    (∀ v : ToyVec T, v.Inv → ((v.pop).2).Inv) :=
  ⟨runOps_Inv ops _ (with_capacity_Inv n), with_capacity_Inv n, new_Inv,
    fun v h => push_Inv v x h, fun v h => pop_Inv v h⟩

/-- C10: capacity never decreases: `pop` keeps it unchanged, and `push`
keeps it unchanged when `len < capacity` and otherwise strictly increases
it (`0` to `1`, or `c` to `2 * c`). -/
theorem capacity_monotone_spec {T : Type} [Inhabited T] (v : ToyVec T) (x : T)
    (h : v.len ≤ v.capacity) :
    ((v.pop).2).capacity = v.capacity ∧
    (v.push x).capacity =
      (if v.len < v.capacity then v.capacity
        else if v.capacity = 0 then 1 else 2 * v.capacity) ∧
    v.capacity ≤ (v.push x).capacity ∧
    (v.len = v.capacity → v.capacity < (v.push x).capacity) := by
  have hc := push_capacity v x h
  refine ⟨pop_capacity v, ?_, ?_, ?_⟩
  · rw [hc]
    by_cases hlt : v.len < v.capacity
    · rw [if_pos hlt, if_pos hlt]
    · rw [if_neg hlt, if_neg hlt]
      by_cases h0 : v.capacity = 0
      · rw [if_pos h0, if_pos h0]
      · rw [if_neg h0, if_neg h0, Nat.mul_comm]
  · rw [hc]
    by_cases hlt : v.len < v.capacity
    · rw [if_pos hlt]
    · rw [if_neg hlt]
      by_cases h0 : v.capacity = 0
      · rw [if_pos h0]
        omega
      · rw [if_neg h0]
        omega
  · intro he
    rw [hc, if_neg (by omega)]
    by_cases h0 : v.capacity = 0
    · rw [if_pos h0]
      omega
    · rw [if_neg h0]
      omega

/-- Witness for C10 at the concrete full state `⟨[1, 2], 2⟩`. -/
theorem capacity_monotone_witness :
    (ToyVec.mk [1, 2] 2 : ToyVec Nat).len ≤ (ToyVec.mk [1, 2] 2 : ToyVec Nat).capacity ∧
    ((((ToyVec.mk [1, 2] 2 : ToyVec Nat).pop).2).capacity =
        (ToyVec.mk [1, 2] 2 : ToyVec Nat).capacity ∧
      ((ToyVec.mk [1, 2] 2 : ToyVec Nat).push 7).capacity =
        (if (ToyVec.mk [1, 2] 2 : ToyVec Nat).len < (ToyVec.mk [1, 2] 2 : ToyVec Nat).capacity
          then (ToyVec.mk [1, 2] 2 : ToyVec Nat).capacity
          else if (ToyVec.mk [1, 2] 2 : ToyVec Nat).capacity = 0 then 1
            else 2 * (ToyVec.mk [1, 2] 2 : ToyVec Nat).capacity) ∧
      (ToyVec.mk [1, 2] 2 : ToyVec Nat).capacity ≤
        ((ToyVec.mk [1, 2] 2 : ToyVec Nat).push 7).capacity ∧
      ((ToyVec.mk [1, 2] 2 : ToyVec Nat).len = (ToyVec.mk [1, 2] 2 : ToyVec Nat).capacity →
        (ToyVec.mk [1, 2] 2 : ToyVec Nat).capacity <
          ((ToyVec.mk [1, 2] 2 : ToyVec Nat).push 7).capacity)) :=
  ⟨by decide, capacity_monotone_spec (ToyVec.mk [1, 2] 2) 7 (by decide)⟩
